import Mathlib

/-!
A shallow embedding of the resource-resolution layer of the typst engine:
the font store (src/font.rs) and the path-keyed resource cache
(src/eval/lua.rs), together with proofs of the specified properties.

Machine integers (u16, u32) are embedded as Nat, with explicit wrapping
arithmetic where the source's casts can overflow. External collaborators
(the Loader trait, the rustybuzz parser, the filesystem and the UTF-8
decoder of the standard library) are oracles passed in as data, so that
load and parse counts become observable state.
-/

namespace Typst

/-- The style of a font face (src/font.rs, enum FontStyle). -/
inductive FontStyle where
  | normal
  | italic
  | oblique
deriving DecidableEq

/-- The weight of a font face: a u16 newtype (src/font.rs, struct FontWeight(u16)). -/
structure FontWeight where
  raw : Nat
deriving DecidableEq

/-- The width of a font face: a u16 newtype holding a permille ratio
(src/font.rs, struct FontStretch(u16)). -/
structure FontStretch where
  raw : Nat
deriving DecidableEq

/-- Properties that distinguish a face within a family
(src/font.rs, struct FontVariant). -/
structure FontVariant where
  style : FontStyle
  weight : FontWeight
  stretch : FontStretch
deriving DecidableEq

/-- FontWeight::from_number: clamp to [100, 900] via weight.max(100).min(900). -/
def FontWeight.from_number (weight : Nat) : FontWeight :=
  ⟨min (max weight 100) 900⟩

/-- Reinterpret an integer as a signed 16-bit value (two's-complement wrap),
modelling Rust's `as i16` cast and release-mode wrapping arithmetic. -/
def wrap16 (x : Int) : Int := (x + 32768) % 65536 - 32768

/-- Cast a signed 16-bit value to u16 (bit reinterpretation, `as u16`). -/
def toU16 (x : Int) : Nat := (x % 65536).toNat

/-- Signed 16-bit absolute value; wraps at -32768 as i16::abs does in
release mode. -/
def i16abs (x : Int) : Int := wrap16 (Int.natAbs x)

/-- FontWeight::distance (src/font.rs line 534):
`(self.0 as i16 - other.0 as i16).abs() as u16`, with the wrapping
semantics of the casts and of release-mode i16 arithmetic made explicit. -/
def FontWeight.distance (a b : FontWeight) : Nat :=
  toU16 (i16abs (wrap16 (wrap16 a.raw - wrap16 b.raw)))

/-- FontStretch::from_number: map an OpenType width class 1..9 (0 treated
like 1, anything above 8 like 9) to a named permille preset. -/
def FontStretch.from_number (stretch : Nat) : FontStretch :=
  match stretch with
  | 0 => ⟨500⟩
  | 1 => ⟨500⟩
  | 2 => ⟨625⟩
  | 3 => ⟨750⟩
  | 4 => ⟨875⟩
  | 5 => ⟨1000⟩
  | 6 => ⟨1125⟩
  | 7 => ⟨1250⟩
  | 8 => ⟨1500⟩
  | _ => ⟨2000⟩

/-- Round a nonnegative rational to the nearest value with a 24-bit
significand, ties to even - IEEE-754 round-to-nearest-even at binary32
precision with an unbounded exponent. Every f32 operation in
FontStretch::to_ratio and FontStretch::distance produces values well
inside the binary32 normal range (the quotients raw/1000 lie in
[2^-10, 2^17) or are 0, and nonzero rounded differences of two such
quotients exceed 2^-11), so on every value those functions can produce
this agrees exactly with the hardware f32 rounding. Nonpositive inputs
(only 0 occurs) map to 0. -/
def roundF32 (x : ℚ) : ℚ :=
  if x ≤ 0 then 0
  else
    let e : ℤ := Int.log 2 x
    let s : ℚ := x * (2 : ℚ) ^ (23 - e)
    let n : ℤ := ⌊s⌋
    let n' : ℤ :=
      if s - (n : ℚ) < 1 / 2 then n
      else if (1 : ℚ) / 2 < s - (n : ℚ) then n + 1
      else if n % 2 = 0 then n else n + 1
    (n' : ℚ) * (2 : ℚ) ^ (e - 23)

/-- FontStretch::to_ratio (src/font.rs line 644): `self.0 as f32 / 1000.0`.
The u16-to-f32 cast is exact (raw < 2^24), and the f32 division is the
correctly rounded quotient, modelled by roundF32. -/
def FontStretch.to_ratio (s : FontStretch) : ℚ :=
  roundF32 ((s.raw : ℚ) / 1000)

/-- FontStretch::distance (src/font.rs line 666):
`(self.to_ratio() - other.to_ratio()).abs()` in f32. The operands are
exactly represented f32 values, the f32 subtraction is the correctly
rounded difference and abs is exact; since round-to-nearest-even is
symmetric, |round(u - v)| = round(|u - v|), which is the form used here. -/
def FontStretch.distance (a b : FontStretch) : ℚ :=
  roundF32 |a.to_ratio - b.to_ratio|

/-- Modelled from the spec: "weight and stretch serialize as their raw
numeric encodings" (section 6) - the serde(transparent) derive on
FontWeight delegates to the inner u16 with no clamping. -/
def FontWeight.serialize (w : FontWeight) : Nat := w.raw

/-- Modelled from the spec: serde(transparent) deserialization of
FontWeight reads the raw u16 directly, not through from_number. -/
def FontWeight.deserialize (n : Nat) : FontWeight := ⟨n⟩

/-- Modelled from the spec: serde(transparent) serialization of
FontStretch is its raw u16 permille encoding. -/
def FontStretch.serialize (s : FontStretch) : Nat := s.raw

/-- Modelled from the spec: serde(transparent) deserialization of
FontStretch reads the raw u16 directly, not through from_number. -/
def FontStretch.deserialize (n : Nat) : FontStretch := ⟨n⟩

/-- Modelled from the spec: "all metrics are expressed in
font-size-independent units (em fractions) computed by dividing raw font
units by the face's units-per-em" - Em::from_units of the geom module. -/
def Em.from_units (units : Int) (unitsPerEm : ℚ) : ℚ :=
  (units : ℚ) / unitsPerEm

/-- A thickness/position pair as reported by a font's strikeout or
underline table (ttf_parser::ScriptMetrics). -/
structure ScriptMetrics where
  thickness : Int
  position : Int
deriving DecidableEq

/-- The raw metric values the parsed ttf face reports; this is the input
interface Face::new reads through rustybuzz/ttf-parser. -/
structure TtfFace where
  unitsPerEm : Nat
  typographicAscender : Option Int
  ascender : Int
  capitalHeight : Option Int
  xHeight : Option Int
  typographicDescender : Option Int
  descender : Int
  strikeoutMetrics : Option ScriptMetrics
  underlineMetrics : Option ScriptMetrics
deriving DecidableEq

/-- Metrics for a decorative line (src/font.rs, struct LineMetrics). -/
structure LineMetrics where
  strength : ℚ
  position : ℚ
deriving DecidableEq

/-- The derived metric fields of a Face (src/font.rs, struct Face). -/
structure FaceMetrics where
  unitsPerEm : ℚ
  ascender : ℚ
  capHeight : ℚ
  xHeight : ℚ
  descender : ℚ
  strikethrough : LineMetrics
  underline : LineMetrics
  overline : LineMetrics
deriving DecidableEq

/-- The metric derivation of Face::new (src/font.rs lines 185-212),
for a face whose parse succeeded and reports the given table values. -/
def Face.metricsOf (t : TtfFace) : FaceMetrics :=
  let upem : ℚ := (t.unitsPerEm : ℚ)
  let toEm : Int → ℚ := fun units => Em.from_units units upem
  let ascender := toEm (t.typographicAscender.getD t.ascender)
  let capHeight :=
    ((t.capitalHeight.filter fun h => decide (0 < h)).map toEm).getD ascender
  let xHeight :=
    ((t.xHeight.filter fun h => decide (0 < h)).map toEm).getD ascender
  let descender := toEm (t.typographicDescender.getD t.descender)
  let strikethrough : LineMetrics :=
    { strength :=
        (((t.strikeoutMetrics.or t.underlineMetrics).map
          fun s => toEm s.thickness).getD ((6 : ℚ) / 100))
      position := ((t.strikeoutMetrics.map fun s => toEm s.position).getD ((25 : ℚ) / 100)) }
  let underline : LineMetrics :=
    { strength :=
        (((t.underlineMetrics.or t.strikeoutMetrics).map
          fun s => toEm s.thickness).getD ((6 : ℚ) / 100))
      position := ((t.underlineMetrics.map fun s => toEm s.position).getD (-(2 : ℚ) / 10)) }
  let overline : LineMetrics :=
    { strength := underline.strength
      position := capHeight + (1 : ℚ) / 10 }
  { unitsPerEm := upem
    ascender := ascender
    capHeight := capHeight
    xHeight := xHeight
    descender := descender
    strikethrough := strikethrough
    underline := underline
    overline := overline }

/-- C9: if the parsed face reports no capital height, or one that is not
positive, the cap_height of the face equals its ascender (the typographic
ascender if present, else the legacy ascender), in em units obtained by
dividing by units-per-em. -/
theorem cap_height_fallback (t : TtfFace)
    (h : ∀ x : Int, t.capitalHeight = some x → x ≤ 0) :
    (Face.metricsOf t).capHeight = (Face.metricsOf t).ascender ∧
    (Face.metricsOf t).ascender =
      Em.from_units (t.typographicAscender.getD t.ascender) (t.unitsPerEm : ℚ) := by
  constructor
  · cases hc : t.capitalHeight with
    | none => simp [Face.metricsOf, hc]
    | some x =>
      have hx : x ≤ 0 := h x hc
      have hnot : ¬ (0 < x) := not_lt.mpr hx
      simp [Face.metricsOf, hc, Option.filter, hnot]
  · simp [Face.metricsOf]

/-- Witness for C9 at a concrete face with no reported capital height. -/
theorem cap_height_fallback_witness :
    (Face.metricsOf
      { unitsPerEm := 1000
        typographicAscender := some 800
        ascender := 750
        capitalHeight := none
        xHeight := some 500
        typographicDescender := none
        descender := -200
        strikeoutMetrics := none
        underlineMetrics := none }).capHeight =
    (Face.metricsOf
      { unitsPerEm := 1000
        typographicAscender := some 800
        ascender := 750
        capitalHeight := none
        xHeight := some 500
        typographicDescender := none
        descender := -200
        strikeoutMetrics := none
        underlineMetrics := none }).ascender :=
  (cap_height_fallback _ (fun _ hx => Option.noConfusion hx)).1

/-- C10: FontWeight and FontStretch serialize and deserialize transparently
as their raw u16 encodings, round-tripping exactly with no clamping, so a
deserialized FontWeight can lie below 100 (outside every from_number
output) and a deserialized FontStretch can differ from every from_number
preset. -/
theorem weight_stretch_serde_transparent :
    (∀ w : FontWeight, FontWeight.deserialize (FontWeight.serialize w) = w) ∧
    (∀ n : Nat, FontWeight.serialize (FontWeight.deserialize n) = n) ∧
    (∀ s : FontStretch, FontStretch.deserialize (FontStretch.serialize s) = s) ∧
    (∀ n : Nat, FontStretch.serialize (FontStretch.deserialize n) = n) ∧
    (FontWeight.deserialize 50).raw < 100 ∧
    (∀ k : Nat, FontWeight.from_number k ≠ FontWeight.deserialize 50) ∧
    (∀ k : Nat, FontStretch.from_number k ≠ FontStretch.deserialize 999) := by
  refine ⟨fun w => rfl, fun n => rfl, fun s => rfl, fun n => rfl, by decide, ?_, ?_⟩
  · intro k h
    have : (FontWeight.from_number k).raw = 50 := congrArg FontWeight.raw h
    simp only [FontWeight.from_number] at this
    omega
  · intro k h
    have : (FontStretch.from_number k).raw = 999 := congrArg FontStretch.raw h
    match k with
    | 0 | 1 | 2 | 3 | 4 | 5 | 6 | 7 | 8 => simp [FontStretch.from_number] at this
    | n + 9 => simp [FontStretch.from_number] at this

/-- Models str::to_lowercase as used on family names; faithful for the
ASCII family names exercised here. -/
def lowercase (s : String) : String := ⟨s.data.map Char.toLower⟩

/-- Properties of a single font face (src/font.rs, struct FaceInfo).
Paths are opaque tokens handed to the loader. -/
structure FaceInfo where
  path : String
  index : Nat
  family : String
  variant : FontVariant
deriving DecidableEq

/-- The lexicographic selection key of src/font.rs lines 97-101:
(style mismatch, stretch distance, weight distance). -/
abbrev MatchKey := Bool × ℚ × Nat

/-- The key computed for a candidate variant against the request. -/
def mkKey (current req : FontVariant) : MatchKey :=
  (decide (current.style ≠ req.style),
   current.stretch.distance req.stretch,
   current.weight.distance req.weight)

/-- Rust's derived lexicographic less-than on (bool, f32, u16) tuples,
with false below true; the f32 component is the exactly represented
rational value of the f32 distance (see FontStretch.distance), and f32
comparison on finite values coincides with the comparison of the exact
values they represent. -/
def keyLt (a b : MatchKey) : Bool :=
  (!a.1 && b.1) ||
    (a.1 == b.1 &&
      (decide (a.2.1 < b.2.1) ||
        (decide (a.2.1 = b.2.1) && decide (a.2.2 < b.2.2))))

/-- The list of (FaceId, FaceInfo) registered under a family key, in
registration order; FontStore::new groups ids by the lower-cased family
name, and FontStore::select looks the given string up among those keys. -/
def candidates (infos : List FaceInfo) (family : String) : List (Nat × FaceInfo) :=
  (List.range infos.length).filterMap fun i =>
    match infos.get? i with
    | some info => if lowercase info.family = family then some (i, info) else none
    | none => none

/-- The matching loop of FontStore::select (src/font.rs lines 85-107):
break on an exact variant match, otherwise keep the candidate whose key is
strictly smaller than the best key so far. -/
def selectLoop (req : FontVariant) :
    List (Nat × FaceInfo) → Option Nat → Option MatchKey → Option Nat
  | [], best, _ => best
  | c :: rest, best, bestKey =>
    if c.2.variant = req then some c.1
    else
      let key := mkKey c.2.variant req
      match bestKey with
      | none => selectLoop req rest (some c.1) (some key)
      | some b =>
        if keyLt key b then selectLoop req rest (some c.1) (some key)
        else selectLoop req rest best bestKey

/-- The pure matching phase of FontStore::select: which FaceId is chosen
for a family string and requested variant, before any loading. -/
def selectFace (infos : List FaceInfo) (family : String) (req : FontVariant) :
    Option Nat :=
  selectLoop req (candidates infos family) none none

/-- The no-exact-match loop with the running best made explicit: keep the
strictly smaller key, first-seen wins ties. -/
def chooseMin (req : FontVariant) (best : Nat × FaceInfo) :
    List (Nat × FaceInfo) → Nat × FaceInfo
  | [] => best
  | c :: rest =>
    if keyLt (mkKey c.2.variant req) (mkKey best.2.variant req) then
      chooseMin req c rest
    else chooseMin req best rest

theorem lexQN_trans {a2 b2 c2 : ℚ} {a3 b3 c3 : Nat}
    (h1 : a2 < b2 ∨ (a2 = b2 ∧ a3 < b3)) (h2 : b2 < c2 ∨ (b2 = c2 ∧ b3 < c3)) :
    a2 < c2 ∨ (a2 = c2 ∧ a3 < c3) := by
  rcases h1 with h1 | ⟨rfl, h1⟩ <;> rcases h2 with h2 | ⟨rfl, h2⟩
  · exact Or.inl (lt_trans h1 h2)
  · exact Or.inl h1
  · exact Or.inl h2
  · exact Or.inr ⟨rfl, Nat.lt_trans h1 h2⟩

theorem lexQN_connex {a2 b2 : ℚ} {a3 b3 : Nat}
    (h1 : b2 ≤ a2) (h2 : ¬ a2 = b2 ∨ b3 ≤ a3) :
    (b2 < a2 ∨ (b2 = a2 ∧ b3 < a3)) ∨ (a2 = b2 ∧ a3 = b3) := by
  rcases lt_or_eq_of_le h1 with hlt | heq
  · exact Or.inl (Or.inl hlt)
  · rcases h2 with hne | hle
    · exact absurd heq.symm hne
    · rcases Nat.lt_or_ge b3 a3 with h4 | h4
      · exact Or.inl (Or.inr ⟨heq, h4⟩)
      · exact Or.inr ⟨heq.symm, Nat.le_antisymm h4 hle⟩

theorem keyLt_irrefl (a : MatchKey) : keyLt a a = false := by
  simp [keyLt]

theorem keyLt_trans {a b c : MatchKey} (hab : keyLt a b = true)
    (hbc : keyLt b c = true) : keyLt a c = true := by
  obtain ⟨a1, a2, a3⟩ := a
  obtain ⟨b1, b2, b3⟩ := b
  obtain ⟨c1, c2, c3⟩ := c
  simp only [keyLt, Bool.or_eq_true, Bool.and_eq_true, Bool.not_eq_true',
    beq_iff_eq, decide_eq_true_eq] at *
  cases a1 <;> cases b1 <;> cases c1 <;> simp_all
  · exact lexQN_trans hab hbc
  · exact lexQN_trans hab hbc

theorem keyLt_connex {a b : MatchKey} (hab : keyLt a b = false) :
    keyLt b a = true ∨ a = b := by
  obtain ⟨a1, a2, a3⟩ := a
  obtain ⟨b1, b2, b3⟩ := b
  simp only [keyLt, Bool.or_eq_false_iff, Bool.or_eq_true, Bool.and_eq_false_iff,
    Bool.and_eq_true, Bool.not_eq_true', Bool.not_eq_false', beq_iff_eq,
    decide_eq_true_eq, decide_eq_false_iff_not, Prod.mk.injEq] at *
  cases a1 <;> cases b1 <;> simp_all
  · rcases lexQN_connex hab.1 hab.2 with h | ⟨he1, he2⟩
    · exact Or.inl h
    · exact Or.inr ⟨he1, he2⟩
  · rcases lexQN_connex hab.1 hab.2 with h | ⟨he1, he2⟩
    · exact Or.inl h
    · exact Or.inr ⟨he1, he2⟩

/-- If some candidate matches exactly, the loop returns the first exact
match, whatever the accumulator holds. -/
theorem selectLoop_exact (req : FontVariant) :
    ∀ (cands : List (Nat × FaceInfo)) (best : Option Nat) (bk : Option MatchKey),
    (∃ c ∈ cands, c.2.variant = req) →
    ∃ pre c post, cands = pre ++ c :: post ∧ c.2.variant = req ∧
      (∀ c' ∈ pre, c'.2.variant ≠ req) ∧
      selectLoop req cands best bk = some c.1 := by
  intro cands
  induction cands with
  | nil => intro best bk h; simp at h
  | cons c rest ih =>
    intro best bk h
    by_cases hc : c.2.variant = req
    · exact ⟨[], c, rest, rfl, hc, by simp, by simp [selectLoop, hc]⟩
    · have hrest : ∃ x ∈ rest, x.2.variant = req := by
        obtain ⟨x, hx, hxv⟩ := h
        cases List.mem_cons.mp hx with
        | inl heq => exact absurd (heq ▸ hxv) hc
        | inr hmem => exact ⟨x, hmem, hxv⟩
      cases bk with
      | none =>
        obtain ⟨pre, d, post, hsplit, hd, hpre, hloop⟩ :=
          ih (some c.1) (some (mkKey c.2.variant req)) hrest
        refine ⟨c :: pre, d, post, by rw [hsplit, List.cons_append], hd, ?_, ?_⟩
        · intro c' hc'
          cases List.mem_cons.mp hc' with
          | inl heq => exact heq ▸ hc
          | inr hmem => exact hpre c' hmem
        · simpa [selectLoop, hc] using hloop
      | some b =>
        by_cases hlt : keyLt (mkKey c.2.variant req) b = true
        · obtain ⟨pre, d, post, hsplit, hd, hpre, hloop⟩ :=
            ih (some c.1) (some (mkKey c.2.variant req)) hrest
          refine ⟨c :: pre, d, post, by rw [hsplit, List.cons_append], hd, ?_, ?_⟩
          · intro c' hc'
            cases List.mem_cons.mp hc' with
            | inl heq => exact heq ▸ hc
            | inr hmem => exact hpre c' hmem
          · simpa [selectLoop, hc, hlt] using hloop
        · obtain ⟨pre, d, post, hsplit, hd, hpre, hloop⟩ := ih best (some b) hrest
          refine ⟨c :: pre, d, post, by rw [hsplit, List.cons_append], hd, ?_, ?_⟩
          · intro c' hc'
            cases List.mem_cons.mp hc' with
            | inl heq => exact heq ▸ hc
            | inr hmem => exact hpre c' hmem
          · simpa [selectLoop, hc, hlt] using hloop

/-- C5: whenever the candidate list of a family contains a face whose
variant equals the requested variant, the matching phase of select picks
the first such candidate in registration order, regardless of every other
candidate's distance key. -/
theorem select_exact_match_first (infos : List FaceInfo) (family : String)
    (req : FontVariant)
    (h : ∃ c ∈ candidates infos family, c.2.variant = req) :
    ∃ pre c post, candidates infos family = pre ++ c :: post ∧
      c.2.variant = req ∧ (∀ c' ∈ pre, c'.2.variant ≠ req) ∧
      selectFace infos family req = some c.1 :=
  selectLoop_exact req (candidates infos family) none none h

/-- Two faces of one family, used as a concrete selection fixture: a
normal regular face followed by an italic bold face. -/
def demoInfos : List FaceInfo :=
  [⟨"a.ttf", 0, "Demo", ⟨.normal, ⟨400⟩, ⟨1000⟩⟩⟩,
   ⟨"b.ttf", 0, "Demo", ⟨.italic, ⟨700⟩, ⟨1000⟩⟩⟩]

/-- Witness for C5: in the fixture family, requesting the italic bold
variant matches face 1 exactly, and the first exact match is chosen. -/
theorem select_exact_match_first_witness :
    (∃ c ∈ candidates demoInfos "demo",
      c.2.variant = FontVariant.mk .italic ⟨700⟩ ⟨1000⟩) ∧
    (∃ pre c post, candidates demoInfos "demo" = pre ++ c :: post ∧
      c.2.variant = FontVariant.mk .italic ⟨700⟩ ⟨1000⟩ ∧
      (∀ c' ∈ pre, c'.2.variant ≠ FontVariant.mk .italic ⟨700⟩ ⟨1000⟩) ∧
      selectFace demoInfos "demo" (FontVariant.mk .italic ⟨700⟩ ⟨1000⟩) = some c.1) :=
  have h : ∃ c ∈ candidates demoInfos "demo",
      c.2.variant = FontVariant.mk .italic ⟨700⟩ ⟨1000⟩ := by decide
  ⟨h, select_exact_match_first demoInfos "demo" (FontVariant.mk .italic ⟨700⟩ ⟨1000⟩) h⟩

/-- With no exact match anywhere, the select loop computes chooseMin of
the running best. -/
theorem selectLoop_noExact (req : FontVariant) :
    ∀ (cands : List (Nat × FaceInfo)), (∀ c ∈ cands, c.2.variant ≠ req) →
    ∀ b : Nat × FaceInfo,
    selectLoop req cands (some b.1) (some (mkKey b.2.variant req)) =
      some (chooseMin req b cands).1 := by
  intro cands
  induction cands with
  | nil => intro _ b; simp [selectLoop, chooseMin]
  | cons c rest ih =>
    intro h b
    have hc : c.2.variant ≠ req := h c (List.mem_cons_self c rest)
    have hrest : ∀ x ∈ rest, x.2.variant ≠ req :=
      fun x hx => h x (List.mem_cons_of_mem c hx)
    by_cases hlt : keyLt (mkKey c.2.variant req) (mkKey b.2.variant req) = true
    · simp [selectLoop, chooseMin, hc, hlt, ih hrest c]
    · simp [selectLoop, chooseMin, hc, hlt, ih hrest b]

/-- Minimality of chooseMin: no element of the pool, the seed included,
has a key strictly below the chosen one. -/
theorem chooseMin_min (req : FontVariant) :
    ∀ (l : List (Nat × FaceInfo)) (b : Nat × FaceInfo), ∀ c ∈ b :: l,
    keyLt (mkKey c.2.variant req) (mkKey (chooseMin req b l).2.variant req) = false := by
  intro l
  induction l with
  | nil =>
    intro b c hc
    have : c = b := by simpa using hc
    simp [chooseMin, this, keyLt_irrefl]
  | cons d rest ih =>
    intro b c hc
    by_cases hlt : keyLt (mkKey d.2.variant req) (mkKey b.2.variant req) = true
    · rw [chooseMin, if_pos hlt]
      rcases List.mem_cons.mp hc with hcb | hcd
      · subst hcb
        by_contra habs
        have habs' :
            keyLt (mkKey c.2.variant req)
              (mkKey (chooseMin req d rest).2.variant req) = true := by
          revert habs
          cases keyLt (mkKey c.2.variant req)
            (mkKey (chooseMin req d rest).2.variant req) <;> simp
        have hd := ih d d (List.mem_cons_self d rest)
        have := keyLt_trans hlt habs'
        rw [this] at hd
        exact Bool.noConfusion hd
      · exact ih d c hcd
    · rw [chooseMin, if_neg hlt]
      have hltf : keyLt (mkKey d.2.variant req) (mkKey b.2.variant req) = false := by
        revert hlt
        cases keyLt (mkKey d.2.variant req) (mkKey b.2.variant req) <;> simp
      rcases List.mem_cons.mp hc with hcb | hcd
      · exact hcb ▸ ih b b (List.mem_cons_self b rest)
      rcases List.mem_cons.mp hcd with hcd' | hcr
      · subst hcd'
        by_contra habs
        have habs' :
            keyLt (mkKey c.2.variant req)
              (mkKey (chooseMin req b rest).2.variant req) = true := by
          revert habs
          cases keyLt (mkKey c.2.variant req)
            (mkKey (chooseMin req b rest).2.variant req) <;> simp
        have hb := ih b b (List.mem_cons_self b rest)
        rcases keyLt_connex hltf with hba | hbeq
        · have := keyLt_trans hba habs'
          rw [this] at hb
          exact Bool.noConfusion hb
        · rw [hbeq] at habs'
          rw [habs'] at hb
          exact Bool.noConfusion hb
      · exact ih b c (List.mem_cons_of_mem b hcr)

/-- Position of chooseMin: everything before the chosen element in the
pool has a strictly larger key, so the chosen one is the first among the
minimal-key elements. -/
theorem chooseMin_first (req : FontVariant) :
    ∀ (l : List (Nat × FaceInfo)) (b : Nat × FaceInfo),
    ∃ pre post, b :: l = pre ++ (chooseMin req b l) :: post ∧
      ∀ c ∈ pre,
        keyLt (mkKey (chooseMin req b l).2.variant req) (mkKey c.2.variant req) = true := by
  intro l
  induction l with
  | nil => intro b; exact ⟨[], [], by simp [chooseMin], by simp⟩
  | cons d rest ih =>
    intro b
    by_cases hlt : keyLt (mkKey d.2.variant req) (mkKey b.2.variant req) = true
    · rw [chooseMin, if_pos hlt]
      obtain ⟨pre, post, hsplit, hpre⟩ := ih d
      refine ⟨b :: pre, post, by rw [List.cons_append, ← hsplit], ?_⟩
      intro c hc
      rcases List.mem_cons.mp hc with hcb | hcp
      · subst hcb
        have hmin := chooseMin_min req rest d d (List.mem_cons_self d rest)
        rcases keyLt_connex hmin with hrd | hdeq
        · exact keyLt_trans hrd hlt
        · rw [← hdeq]; exact hlt
      · exact hpre c hcp
    · rw [chooseMin, if_neg hlt]
      have hltf : keyLt (mkKey d.2.variant req) (mkKey b.2.variant req) = false := by
        revert hlt
        cases keyLt (mkKey d.2.variant req) (mkKey b.2.variant req) <;> simp
      obtain ⟨pre, post, hsplit, hpre⟩ := ih b
      cases pre with
      | nil =>
        have hb : chooseMin req b rest = b := by
          have := hsplit
          simp at this
          exact this.1.symm
        have hpost : post = rest := by
          have := hsplit
          simp at this
          exact this.2.symm
        exact ⟨[], d :: post, by simp [hb, hpost], by simp⟩
      | cons p pre' =>
        have hbp : b = p := by
          have := hsplit
          rw [List.cons_append] at this
          exact (List.cons.injEq _ _ _ _ ▸ this).1
        have hrest : rest = pre' ++ (chooseMin req b rest) :: post := by
          have := hsplit
          rw [List.cons_append] at this
          exact (List.cons.injEq _ _ _ _ ▸ this).2
        have hrb : keyLt (mkKey (chooseMin req b rest).2.variant req)
            (mkKey b.2.variant req) = true := by
          have := hpre p (List.mem_cons_self p pre')
          rw [← hbp] at this
          exact this
        refine ⟨b :: d :: pre', post, ?_, ?_⟩
        · rw [List.cons_append, List.cons_append, ← hrest]
        · intro c hc
          rcases List.mem_cons.mp hc with hcb | hcd
          · subst hcb; exact hrb
          rcases List.mem_cons.mp hcd with hcd' | hcp
          · subst hcd'
            rcases keyLt_connex hltf with hbd | hdb
            · exact keyLt_trans hrb hbd
            · rw [hdb]; exact hrb
          · exact hpre c (hbp ▸ List.mem_cons_of_mem b hcp)

/-- C6: with no exact variant match among the candidates of a family,
the matching phase of select picks a candidate whose lexicographic key
(style mismatch, stretch distance, weight distance) is minimal, and every
earlier-registered candidate has a strictly larger key - so among
identical keys the first-registered candidate wins, deterministically. -/
theorem select_lex_min_tiebreak (infos : List FaceInfo) (family : String)
    (req : FontVariant) (hne : candidates infos family ≠ [])
    (hnoex : ∀ c ∈ candidates infos family, c.2.variant ≠ req) :
    ∃ pre c post, candidates infos family = pre ++ c :: post ∧
      selectFace infos family req = some c.1 ∧
      (∀ c' ∈ candidates infos family,
        keyLt (mkKey c'.2.variant req) (mkKey c.2.variant req) = false) ∧
      (∀ c' ∈ pre,
        keyLt (mkKey c.2.variant req) (mkKey c'.2.variant req) = true) ∧
      (∀ c' ∈ pre, mkKey c'.2.variant req ≠ mkKey c.2.variant req) := by
  obtain ⟨c0, rest, hcs⟩ := List.exists_cons_of_ne_nil hne
  have hc0 : c0.2.variant ≠ req := hnoex c0 (by rw [hcs]; exact List.mem_cons_self c0 rest)
  have hrest : ∀ x ∈ rest, x.2.variant ≠ req :=
    fun x hx => hnoex x (by rw [hcs]; exact List.mem_cons_of_mem c0 hx)
  have hloop : selectFace infos family req = some (chooseMin req c0 rest).1 := by
    rw [selectFace, hcs, selectLoop]
    simp only [hc0, if_false]
    exact selectLoop_noExact req rest hrest c0
  obtain ⟨pre, post, hsplit, hpre⟩ := chooseMin_first req rest c0
  refine ⟨pre, chooseMin req c0 rest, post, hcs.trans hsplit, hloop, ?_, hpre, ?_⟩
  · intro c' hc'
    rw [hcs] at hc'
    exact chooseMin_min req rest c0 c' hc'
  · intro c' hc' heq
    have := hpre c' hc'
    rw [heq] at this
    rw [keyLt_irrefl] at this
    exact Bool.noConfusion this

/-- Two faces whose keys against an italic request are identical: both are
normal style, weight 400, stretch 1000. -/
def tieInfos : List FaceInfo :=
  [⟨"a.ttf", 0, "Tie", ⟨.normal, ⟨400⟩, ⟨1000⟩⟩⟩,
   ⟨"b.ttf", 0, "Tie", ⟨.normal, ⟨400⟩, ⟨1000⟩⟩⟩]

/-- Witness for C6 on the tie fixture: requesting an italic variant that
matches no candidate exactly, the minimal-key, first-registered candidate
is chosen. -/
theorem select_lex_min_tiebreak_witness :
    (candidates tieInfos "tie" ≠ [] ∧
      ∀ c ∈ candidates tieInfos "tie",
        c.2.variant ≠ FontVariant.mk .italic ⟨400⟩ ⟨1000⟩) ∧
    (∃ pre c post, candidates tieInfos "tie" = pre ++ c :: post ∧
      selectFace tieInfos "tie" (FontVariant.mk .italic ⟨400⟩ ⟨1000⟩) = some c.1 ∧
      (∀ c' ∈ candidates tieInfos "tie",
        keyLt (mkKey c'.2.variant (FontVariant.mk .italic ⟨400⟩ ⟨1000⟩))
          (mkKey c.2.variant (FontVariant.mk .italic ⟨400⟩ ⟨1000⟩)) = false) ∧
      (∀ c' ∈ pre,
        keyLt (mkKey c.2.variant (FontVariant.mk .italic ⟨400⟩ ⟨1000⟩))
          (mkKey c'.2.variant (FontVariant.mk .italic ⟨400⟩ ⟨1000⟩)) = true) ∧
      (∀ c' ∈ pre, mkKey c'.2.variant (FontVariant.mk .italic ⟨400⟩ ⟨1000⟩) ≠
        mkKey c.2.variant (FontVariant.mk .italic ⟨400⟩ ⟨1000⟩))) :=
  have h1 : candidates tieInfos "tie" ≠ [] := by decide
  have h2 : ∀ c ∈ candidates tieInfos "tie",
      c.2.variant ≠ FontVariant.mk .italic ⟨400⟩ ⟨1000⟩ := by decide
  ⟨⟨h1, h2⟩, select_lex_min_tiebreak tieInfos "tie" (FontVariant.mk .italic ⟨400⟩ ⟨1000⟩) h1 h2⟩

/-- Raw font bytes. -/
abbrev Buffer := List Nat

/-- The external Loader trait (crate::loading::Loader) as an oracle:
an ordered face catalog, path-to-content-hash resolution and byte
loading, each fallible (None models an Err result). -/
structure Loader where
  faces : List FaceInfo
  resolve : String → Option Nat
  load : String → Option Buffer

/-- A loaded face as the store sees it: the shared byte buffer and the
collection index (the parsed rustybuzz view and the derived metrics are
deterministic functions of these two, handled by Face.metricsOf). -/
structure Face where
  buffer : Buffer
  index : Nat
deriving DecidableEq

/-- Storage for loaded and parsed font faces (src/font.rs, FontStore),
with observable logs for loader.load calls, Face::new attempts and
on_load callback invocations. parseOk is the rustybuzz parse oracle
(whether Face::new succeeds on these bytes at this index); hasOnLoad
records whether an observer was registered via on_load. -/
structure FontStore where
  loader : Loader
  parseOk : Buffer → Nat → Bool
  faces : List (Option Face)
  buffers : List (Nat × Buffer)
  hasOnLoad : Bool
  loadLog : List String
  parseLog : List Nat
  observed : List Nat

/-- Lookup in the buffer cache (HashMap FileHash -> Rc buffer). -/
def assocFind (l : List (Nat × Buffer)) (k : Nat) : Option Buffer :=
  match l with
  | [] => none
  | (k', v) :: rest => if k' = k then some v else assocFind rest k

/-- FontStore::new: one empty slot per catalog face, empty buffer cache. -/
def FontStore.new (loader : Loader) (parseOk : Buffer → Nat → Bool)
    (hasOnLoad : Bool) : FontStore :=
  { loader := loader
    parseOk := parseOk
    faces := List.replicate loader.faces.length none
    buffers := []
    hasOnLoad := hasOnLoad
    loadLog := []
    parseLog := []
    observed := [] }

/-- The tail of FontStore::select after a buffer is in hand (src/font.rs
lines 128-136): attempt Face::new, fire the observer on success, commit
the slot; on failure return None committing nothing. -/
def finishParse (s : FontStore) (id : Nat) (index : Nat) (buf : Buffer) :
    Option Nat × FontStore :=
  let s1 := { s with parseLog := s.parseLog ++ [id] }
  if s1.parseOk buf index then
    let s2 := if s1.hasOnLoad then { s1 with observed := s1.observed ++ [id] } else s1
    (some id, { s2 with faces := s2.faces.set id (some ⟨buf, index⟩) })
  else (none, s1)

/-- The loading block of FontStore::select (src/font.rs lines 111-135):
resolve the path to a content hash, reuse or populate the buffer cache
(counting loader.load calls), then parse. -/
def loadFace (s : FontStore) (id : Nat) : Option Nat × FontStore :=
  match s.loader.faces.get? id with
  | none => (none, s)
  | some info =>
    match s.loader.resolve info.path with
    | none => (none, s)
    | some hash =>
      match assocFind s.buffers hash with
      | some buf => finishParse s id info.index buf
      | none =>
        match s.loader.load info.path with
        | none => (none, { s with loadLog := s.loadLog ++ [info.path] })
        | some buf =>
          finishParse
            { s with loadLog := s.loadLog ++ [info.path],
                     buffers := s.buffers ++ [(hash, buf)] }
            id info.index buf

/-- FontStore::select (src/font.rs lines 76-137): candidate matching,
then, if the chosen slot is still empty, lazy load and parse. -/
def FontStore.select (s : FontStore) (family : String) (req : FontVariant) :
    Option Nat × FontStore :=
  match selectFace s.loader.faces family req with
  | none => (none, s)
  | some id =>
    match s.faces.get? id with
    | some (some _) => (some id, s)
    | _ => loadFace s id

theorem replicate_get? {α : Type} (a : α) :
    ∀ (n id : Nat), (List.replicate n a).get? id =
      if id < n then some a else none := by
  intro n
  induction n with
  | zero => intro id; simp
  | succ m ih =>
    intro id
    cases id with
    | zero => simp [List.replicate]
    | succ j =>
      simp only [List.replicate, List.get?]
      rw [ih j]
      simp [Nat.succ_lt_succ_iff]

theorem get?_set_self {α : Type} :
    ∀ (l : List α) (n : Nat) (a : α), n < l.length →
      (l.set n a).get? n = some a := by
  intro l
  induction l with
  | nil => intro n a h; simp at h
  | cons x xs ih =>
    intro n a h
    cases n with
    | zero => simp
    | succ m => simpa using ih m a (by simpa using h)

theorem get?_set_other {α : Type} :
    ∀ (l : List α) (m n : Nat) (a : α), m ≠ n →
      (l.set m a).get? n = l.get? n := by
  intro l
  induction l with
  | nil => intro m n a _; simp
  | cons x xs ih =>
    intro m n a h
    cases m with
    | zero =>
      cases n with
      | zero => exact absurd rfl h
      | succ j => simp
    | succ i =>
      cases n with
      | zero => simp
      | succ j => simpa using ih i j a (fun he => h (by rw [he]))

theorem get?_some_lt {α : Type} :
    ∀ (l : List α) (n : Nat) (a : α), l.get? n = some a → n < l.length := by
  intro l
  induction l with
  | nil => intro n a h; simp at h
  | cons x xs ih =>
    intro n a h
    cases n with
    | zero => simp
    | succ m =>
      simp only [List.get?] at h
      exact Nat.succ_lt_succ (ih m a h)

/-- Membership in the candidate list determines the catalog entry and the
lower-cased family key. -/
theorem candidates_mem (infos : List FaceInfo) (family : String)
    (c : Nat × FaceInfo) (h : c ∈ candidates infos family) :
    infos.get? c.1 = some c.2 ∧ lowercase c.2.family = family := by
  obtain ⟨i, _, hf⟩ := List.mem_filterMap.mp h
  cases hi : infos.get? i with
  | none => rw [hi] at hf; simp at hf
  | some info =>
    rw [hi] at hf
    dsimp only at hf
    by_cases hfam : lowercase info.family = family
    · rw [if_pos hfam] at hf
      obtain rfl := Option.some.inj hf
      exact ⟨hi, hfam⟩
    · rw [if_neg hfam] at hf
      simp at hf

/-- The id returned by the select loop is one of the candidates, or the
accumulator. -/
theorem selectLoop_mem (req : FontVariant) :
    ∀ (cands : List (Nat × FaceInfo)) (best : Option Nat) (bk : Option MatchKey)
      (id : Nat), selectLoop req cands best bk = some id →
      (∃ c ∈ cands, c.1 = id) ∨ best = some id := by
  intro cands
  induction cands with
  | nil => intro best bk id h; right; simpa [selectLoop] using h
  | cons c rest ih =>
    intro best bk id h
    rw [selectLoop] at h
    by_cases hc : c.2.variant = req
    · rw [if_pos hc] at h
      exact Or.inl ⟨c, List.mem_cons_self c rest, Option.some.inj h⟩
    · rw [if_neg hc] at h
      cases bk with
      | none =>
        dsimp only at h
        rcases ih _ _ _ h with ⟨d, hd, hdi⟩ | hbest
        · exact Or.inl ⟨d, List.mem_cons_of_mem c hd, hdi⟩
        · exact Or.inl ⟨c, List.mem_cons_self c rest, Option.some.inj hbest⟩
      | some b =>
        dsimp only at h
        by_cases hlt : keyLt (mkKey c.2.variant req) b = true
        · rw [if_pos hlt] at h
          rcases ih _ _ _ h with ⟨d, hd, hdi⟩ | hbest
          · exact Or.inl ⟨d, List.mem_cons_of_mem c hd, hdi⟩
          · exact Or.inl ⟨c, List.mem_cons_self c rest, Option.some.inj hbest⟩
        · rw [if_neg hlt] at h
          rcases ih _ _ _ h with ⟨d, hd, hdi⟩ | hbest
          · exact Or.inl ⟨d, List.mem_cons_of_mem c hd, hdi⟩
          · exact Or.inr hbest

/-- A chosen FaceId points at a catalog entry whose lower-cased family is
the queried string. -/
theorem selectFace_get? (infos : List FaceInfo) (family : String)
    (req : FontVariant) (id : Nat) (h : selectFace infos family req = some id) :
    ∃ info, infos.get? id = some info ∧ lowercase info.family = family := by
  rcases selectLoop_mem req (candidates infos family) none none id h with ⟨c, hc, hci⟩ | hbest
  · obtain ⟨hget, hfam⟩ := candidates_mem infos family c hc
    exact ⟨c.2, hci ▸ hget, hfam⟩
  · simp at hbest

/-- With a some accumulator the loop always yields a result. -/
theorem selectLoop_some_acc (req : FontVariant) :
    ∀ (cands : List (Nat × FaceInfo)) (b : Nat) (bk : Option MatchKey),
      (selectLoop req cands (some b) bk).isSome := by
  intro cands
  induction cands with
  | nil => intro b bk; simp [selectLoop]
  | cons c rest ih =>
    intro b bk
    rw [selectLoop]
    by_cases hc : c.2.variant = req
    · rw [if_pos hc]; simp
    · rw [if_neg hc]
      cases bk with
      | none => exact ih c.1 _
      | some k =>
        dsimp only
        by_cases hlt : keyLt (mkKey c.2.variant req) k = true
        · rw [if_pos hlt]; exact ih c.1 _
        · rw [if_neg hlt]; exact ih b _

/-- A nonempty candidate list always produces a chosen face. -/
theorem selectFace_isSome (infos : List FaceInfo) (family : String)
    (req : FontVariant) (hne : candidates infos family ≠ []) :
    (selectFace infos family req).isSome := by
  rw [selectFace]
  obtain ⟨c, rest, hcs⟩ := List.exists_cons_of_ne_nil hne
  rw [hcs, selectLoop]
  by_cases hc : c.2.variant = req
  · rw [if_pos hc]; simp
  · rw [if_neg hc]; exact selectLoop_some_acc req rest c.1 _

theorem fst_of_pair_eq {α β : Type} {a r : α} {b b' : β}
    (h : (a, b) = (r, b')) : r = a := by
  rw [Prod.mk.injEq] at h
  exact h.1.symm

theorem snd_of_pair_eq {α β : Type} {a r : α} {b b' : β}
    (h : (a, b) = (r, b')) : b' = b := by
  rw [Prod.mk.injEq] at h
  exact h.2.symm

/-- Flattened form of finishParse. -/
theorem finishParse_eq (s : FontStore) (id index : Nat) (buf : Buffer) :
    finishParse s id index buf =
      if s.parseOk buf index then
        (some id,
          { s with parseLog := s.parseLog ++ [id],
                   observed := if s.hasOnLoad then s.observed ++ [id] else s.observed,
                   faces := s.faces.set id (some ⟨buf, index⟩) })
      else (none, { s with parseLog := s.parseLog ++ [id] }) := by
  rw [finishParse]
  cases hOb : s.hasOnLoad <;> simp [hOb]

/-- Selecting a face whose slot is already populated returns the id and
leaves the store untouched. -/
theorem select_loaded (s : FontStore) (f : String) (req : FontVariant)
    (id : Nat) (face : Face)
    (hsf : selectFace s.loader.faces f req = some id)
    (hslot : s.faces.get? id = some (some face)) :
    s.select f req = (some id, s) := by
  rw [FontStore.select, hsf]
  dsimp only
  rw [hslot]

/-- Selecting a face whose slot is still empty runs the loading block. -/
theorem select_empty_slot (s : FontStore) (f : String) (req : FontVariant)
    (id : Nat) (hsf : selectFace s.loader.faces f req = some id)
    (hslot : s.faces.get? id = some none) :
    s.select f req = loadFace s id := by
  rw [FontStore.select, hsf]
  dsimp only
  rw [hslot]

/-- When matching produces no candidate, select fails with no state
change. -/
theorem select_no_candidate (s : FontStore) (f : String) (req : FontVariant)
    (hsf : selectFace s.loader.faces f req = none) :
    s.select f req = (none, s) := by
  rw [FontStore.select, hsf]

/-- The loading block returns either a failure or the requested id. -/
theorem loadFace_fst (s : FontStore) (id : Nat) (r : Option Nat)
    (s' : FontStore) (h : loadFace s id = (r, s')) :
    r = none ∨ r = some id := by
  rw [loadFace] at h
  cases hinfo : s.loader.faces.get? id with
  | none => rw [hinfo] at h; exact Or.inl (fst_of_pair_eq h)
  | some info =>
    rw [hinfo] at h
    dsimp only at h
    cases hres : s.loader.resolve info.path with
    | none => rw [hres] at h; exact Or.inl (fst_of_pair_eq h)
    | some hash =>
      rw [hres] at h
      dsimp only at h
      cases hfind : assocFind s.buffers hash with
      | some buf =>
        rw [hfind] at h
        dsimp only at h
        rw [finishParse_eq] at h
        by_cases hp : s.parseOk buf info.index = true
        · rw [if_pos hp] at h; exact Or.inr (fst_of_pair_eq h)
        · rw [if_neg hp] at h; exact Or.inl (fst_of_pair_eq h)
      | none =>
        rw [hfind] at h
        dsimp only at h
        cases hload : s.loader.load info.path with
        | none => rw [hload] at h; exact Or.inl (fst_of_pair_eq h)
        | some buf =>
          rw [hload] at h
          dsimp only at h
          rw [finishParse_eq] at h
          by_cases hp : s.parseOk buf info.index = true
          · rw [if_pos hp] at h; exact Or.inr (fst_of_pair_eq h)
          · rw [if_neg hp] at h; exact Or.inl (fst_of_pair_eq h)

/-- A successful select returns exactly the id the matching phase chose. -/
theorem select_fst (s : FontStore) (f : String) (req : FontVariant)
    (r : Option Nat) (s' : FontStore) (h : s.select f req = (r, s')) :
    r = none ∨ r = selectFace s.loader.faces f req := by
  rw [FontStore.select] at h
  cases hsf : selectFace s.loader.faces f req with
  | none => rw [hsf] at h; exact Or.inl (fst_of_pair_eq h)
  | some id =>
    rw [hsf] at h
    dsimp only at h
    rcases hslot : s.faces.get? id with _ | (_ | face)
    · rw [hslot] at h
      rcases loadFace_fst s id r s' h with hn | hs
      · exact Or.inl hn
      · exact Or.inr hs
    · rw [hslot] at h
      rcases loadFace_fst s id r s' h with hn | hs
      · exact Or.inl hn
      · exact Or.inr hs
    · rw [hslot] at h
      exact Or.inr (fst_of_pair_eq h)

/-- A select that succeeds on an already-loaded slot changes nothing. -/
theorem select_result_loaded (s : FontStore) (f : String) (req : FontVariant)
    (id : Nat) (face : Face) (s' : FontStore)
    (hslot : s.faces.get? id = some (some face))
    (h : s.select f req = (some id, s')) : s' = s := by
  rcases select_fst s f req (some id) s' h with hn | hs
  · exact Option.noConfusion hn
  · rw [select_loaded s f req id face hs.symm hslot] at h
    exact snd_of_pair_eq h

/-- Loading when the catalog entry is missing the resolve step fails:
select aborts with no state change. -/
theorem loadFace_resolve_fail (s : FontStore) (id : Nat) (info : FaceInfo)
    (hinfo : s.loader.faces.get? id = some info)
    (hres : s.loader.resolve info.path = none) :
    loadFace s id = (none, s) := by
  rw [loadFace, hinfo]
  dsimp only
  rw [hres]

/-- Loading through a cache miss: the loader is consulted, the buffer is
inserted into the cache, and parsing proceeds on the fresh buffer. -/
theorem loadFace_uncached (s : FontStore) (id : Nat) (info : FaceInfo)
    (hash : Nat) (buf : Buffer)
    (hinfo : s.loader.faces.get? id = some info)
    (hres : s.loader.resolve info.path = some hash)
    (hfind : assocFind s.buffers hash = none)
    (hload : s.loader.load info.path = some buf) :
    loadFace s id =
      finishParse
        { s with loadLog := s.loadLog ++ [info.path],
                 buffers := s.buffers ++ [(hash, buf)] } id info.index buf := by
  rw [loadFace, hinfo]
  dsimp only
  rw [hres]
  dsimp only
  rw [hfind]
  dsimp only
  rw [hload]

/-- Loading through a cache hit: no loader.load call is made and parsing
proceeds on the cached buffer. -/
theorem loadFace_cached (s : FontStore) (id : Nat) (info : FaceInfo)
    (hash : Nat) (buf : Buffer)
    (hinfo : s.loader.faces.get? id = some info)
    (hres : s.loader.resolve info.path = some hash)
    (hfind : assocFind s.buffers hash = some buf) :
    loadFace s id = finishParse s id info.index buf := by
  rw [loadFace, hinfo]
  dsimp only
  rw [hres]
  dsimp only
  rw [hfind]

/-- Loading when the byte read itself fails: select aborts, but the load
attempt is logged. -/
theorem loadFace_load_fail (s : FontStore) (id : Nat) (info : FaceInfo)
    (hash : Nat) (hinfo : s.loader.faces.get? id = some info)
    (hres : s.loader.resolve info.path = some hash)
    (hfind : assocFind s.buffers hash = none)
    (hload : s.loader.load info.path = none) :
    loadFace s id = (none, { s with loadLog := s.loadLog ++ [info.path] }) := by
  rw [loadFace, hinfo]
  dsimp only
  rw [hres]
  dsimp only
  rw [hfind]
  dsimp only
  rw [hload]

/-- Full characterization of a successful select on a freshly built
store: the matching phase chose the id, every oracle step succeeded, and
the resulting state is the fresh state plus exactly one load, one parse,
one populated slot, one cached buffer and (if registered) one observer
call. -/
theorem select_new_spec (loader : Loader) (pOk : Buffer → Nat → Bool)
    (ob : Bool) (f : String) (req : FontVariant) (id : Nat) (s1 : FontStore)
    (h : (FontStore.new loader pOk ob).select f req = (some id, s1)) :
    selectFace loader.faces f req = some id ∧
    ∃ info hash buf,
      loader.faces.get? id = some info ∧
      loader.resolve info.path = some hash ∧
      loader.load info.path = some buf ∧
      pOk buf info.index = true ∧
      s1 = { loader := loader, parseOk := pOk,
             faces := (List.replicate loader.faces.length (none : Option Face)).set id
               (some ⟨buf, info.index⟩),
             buffers := [(hash, buf)],
             hasOnLoad := ob,
             loadLog := [info.path],
             parseLog := [id],
             observed := if ob then [id] else [] } := by
  have hsf : selectFace loader.faces f req = some id := by
    rcases select_fst _ f req (some id) s1 h with hn | hs
    · exact Option.noConfusion hn
    · exact hs.symm
  obtain ⟨info, hinfo, _⟩ := selectFace_get? loader.faces f req id hsf
  have hlt : id < loader.faces.length := get?_some_lt loader.faces id info hinfo
  have hslot : (FontStore.new loader pOk ob).faces.get? id = some none := by
    show (List.replicate loader.faces.length (none : Option Face)).get? id = some none
    rw [replicate_get?, if_pos hlt]
  rw [select_empty_slot _ f req id hsf hslot] at h
  refine ⟨hsf, info, ?_⟩
  cases hres : loader.resolve info.path with
  | none =>
    rw [loadFace_resolve_fail _ id info hinfo hres] at h
    exact Option.noConfusion (fst_of_pair_eq h)
  | some hash =>
    refine ⟨hash, ?_⟩
    cases hload : loader.load info.path with
    | none =>
      rw [loadFace_load_fail (FontStore.new loader pOk ob) id info hash hinfo
        hres rfl hload] at h
      exact Option.noConfusion (fst_of_pair_eq h)
    | some buf =>
      refine ⟨buf, hinfo, rfl, rfl, ?_⟩
      rw [loadFace_uncached (FontStore.new loader pOk ob) id info hash buf
        hinfo hres rfl hload, finishParse_eq] at h
      dsimp only [FontStore.new] at h
      by_cases hp : pOk buf info.index = true
      · refine ⟨hp, ?_⟩
        rw [if_pos hp] at h
        have := snd_of_pair_eq h
        rw [this]
        simp
      · rw [if_neg hp] at h
        exact Option.noConfusion (fst_of_pair_eq h)

/-- Converse direction: when matching succeeds and every oracle step
succeeds, select on a fresh store loads the face and returns its id. -/
theorem select_new_loads (loader : Loader) (pOk : Buffer → Nat → Bool)
    (ob : Bool) (f : String) (req : FontVariant) (id : Nat) (info : FaceInfo)
    (hash : Nat) (buf : Buffer)
    (hsf : selectFace loader.faces f req = some id)
    (hinfo : loader.faces.get? id = some info)
    (hres : loader.resolve info.path = some hash)
    (hload : loader.load info.path = some buf)
    (hp : pOk buf info.index = true) :
    ((FontStore.new loader pOk ob).select f req).1 = some id := by
  have hlt : id < loader.faces.length := get?_some_lt loader.faces id info hinfo
  have hslot : (FontStore.new loader pOk ob).faces.get? id = some none := by
    show (List.replicate loader.faces.length (none : Option Face)).get? id = some none
    rw [replicate_get?, if_pos hlt]
  rw [select_empty_slot _ f req id hsf hslot,
    loadFace_uncached (FontStore.new loader pOk ob) id info hash buf hinfo
      hres rfl hload, finishParse_eq]
  dsimp only [FontStore.new]
  rw [if_pos hp]

/-- C3: two select calls that resolve to the same FaceId, starting from a
fresh store with a registered observer, perform the underlying load and
parse exactly once and fire the observer exactly once for that id,
already within the first successful call. -/
theorem select_load_once (loader : Loader) (pOk : Buffer → Nat → Bool)
    (f1 f2 : String) (req1 req2 : FontVariant) (id : Nat) (s1 s2 : FontStore)
    (h1 : (FontStore.new loader pOk true).select f1 req1 = (some id, s1))
    (h2 : s1.select f2 req2 = (some id, s2)) :
    s1.loadLog.length = 1 ∧ s1.parseLog = [id] ∧ s1.observed = [id] ∧
    s2.loadLog = s1.loadLog ∧ s2.parseLog = s1.parseLog ∧
    s2.observed = s1.observed := by
  obtain ⟨hsf, info, hash, buf, hinfo, hres, hload, hp, hs1⟩ :=
    select_new_spec loader pOk true f1 req1 id s1 h1
  have hlt : id < loader.faces.length := get?_some_lt loader.faces id info hinfo
  have hslot : s1.faces.get? id = some (some ⟨buf, info.index⟩) := by
    rw [hs1]
    exact get?_set_self _ id _ (by rw [List.length_replicate]; exact hlt)
  have hs2 := select_result_loaded s1 f2 req2 id ⟨buf, info.index⟩ s2 hslot h2
  subst hs2
  refine ⟨?_, ?_, ?_, rfl, rfl, rfl⟩
  · simp [hs1]
  · simp [hs1]
  · simp [hs1]

/-- A two-member font collection served by one loader path and hash,
with a parse oracle that always succeeds. -/
def collLoader : Loader :=
  { faces := [⟨"coll.ttf", 0, "demo", ⟨.normal, ⟨400⟩, ⟨1000⟩⟩⟩,
              ⟨"coll.ttf", 1, "demo", ⟨.italic, ⟨400⟩, ⟨1000⟩⟩⟩]
    resolve := fun _ => some 7
    load := fun _ => some [1, 2, 3] }

/-- A parse oracle that accepts every buffer. -/
def alwaysParse : Buffer → Nat → Bool := fun _ _ => true

/-- Witness for C3 on the collection fixture: selecting the regular face
twice loads once, parses once and fires the observer once. -/
theorem select_load_once_witness :
    (((FontStore.new collLoader alwaysParse true).select "demo"
      ⟨FontStyle.normal, ⟨400⟩, ⟨1000⟩⟩).2.loadLog.length = 1) ∧
    (((FontStore.new collLoader alwaysParse true).select "demo"
      ⟨FontStyle.normal, ⟨400⟩, ⟨1000⟩⟩).2.parseLog = [0]) ∧
    (((FontStore.new collLoader alwaysParse true).select "demo"
      ⟨FontStyle.normal, ⟨400⟩, ⟨1000⟩⟩).2.observed = [0]) ∧
    ((((FontStore.new collLoader alwaysParse true).select "demo"
      ⟨FontStyle.normal, ⟨400⟩, ⟨1000⟩⟩).2.select "demo"
      ⟨FontStyle.normal, ⟨400⟩, ⟨1000⟩⟩).2.loadLog =
      ((FontStore.new collLoader alwaysParse true).select "demo"
      ⟨FontStyle.normal, ⟨400⟩, ⟨1000⟩⟩).2.loadLog) ∧
    ((((FontStore.new collLoader alwaysParse true).select "demo"
      ⟨FontStyle.normal, ⟨400⟩, ⟨1000⟩⟩).2.select "demo"
      ⟨FontStyle.normal, ⟨400⟩, ⟨1000⟩⟩).2.parseLog =
      ((FontStore.new collLoader alwaysParse true).select "demo"
      ⟨FontStyle.normal, ⟨400⟩, ⟨1000⟩⟩).2.parseLog) ∧
    ((((FontStore.new collLoader alwaysParse true).select "demo"
      ⟨FontStyle.normal, ⟨400⟩, ⟨1000⟩⟩).2.select "demo"
      ⟨FontStyle.normal, ⟨400⟩, ⟨1000⟩⟩).2.observed =
      ((FontStore.new collLoader alwaysParse true).select "demo"
      ⟨FontStyle.normal, ⟨400⟩, ⟨1000⟩⟩).2.observed) :=
  select_load_once collLoader alwaysParse "demo" "demo"
    ⟨FontStyle.normal, ⟨400⟩, ⟨1000⟩⟩ ⟨FontStyle.normal, ⟨400⟩, ⟨1000⟩⟩ 0
    ((FontStore.new collLoader alwaysParse true).select "demo"
      ⟨FontStyle.normal, ⟨400⟩, ⟨1000⟩⟩).2
    (((FontStore.new collLoader alwaysParse true).select "demo"
      ⟨FontStyle.normal, ⟨400⟩, ⟨1000⟩⟩).2.select "demo"
      ⟨FontStyle.normal, ⟨400⟩, ⟨1000⟩⟩).2
    rfl rfl

/-- C4: if the parse of the chosen face fails, select returns None, the
slot stays empty and the failure is not memoized: a repeated select
attempts the parse a second time (while the buffer cache still prevents a
second load). -/
theorem select_parse_failure_not_memoized
    (loader : Loader) (pOk : Buffer → Nat → Bool) (ob : Bool) (f : String)
    (req : FontVariant) (id : Nat) (info : FaceInfo) (hash : Nat) (buf : Buffer)
    (hsf : selectFace loader.faces f req = some id)
    (hinfo : loader.faces.get? id = some info)
    (hres : loader.resolve info.path = some hash)
    (hload : loader.load info.path = some buf)
    (hp : pOk buf info.index = false) :
    ∃ s1, (FontStore.new loader pOk ob).select f req = (none, s1) ∧
      s1.faces = (FontStore.new loader pOk ob).faces ∧
      s1.faces.get? id = some none ∧
      s1.parseLog = [id] ∧ s1.loadLog = [info.path] ∧
      (s1.select f req).1 = none ∧
      (s1.select f req).2.parseLog = [id, id] ∧
      (s1.select f req).2.loadLog = s1.loadLog := by
  have hlt : id < loader.faces.length := get?_some_lt loader.faces id info hinfo
  have hslot0 : (FontStore.new loader pOk ob).faces.get? id = some none := by
    show (List.replicate loader.faces.length (none : Option Face)).get? id = some none
    rw [replicate_get?, if_pos hlt]
  have hpne : ¬ (pOk buf info.index = true) := by simp [hp]
  have hsel1 : (FontStore.new loader pOk ob).select f req =
      (none,
        { loader := loader, parseOk := pOk,
          faces := List.replicate loader.faces.length none,
          buffers := [(hash, buf)], hasOnLoad := ob,
          loadLog := [info.path], parseLog := [id], observed := [] }) := by
    rw [select_empty_slot _ f req id hsf hslot0,
      loadFace_uncached (FontStore.new loader pOk ob) id info hash buf hinfo
        hres rfl hload, finishParse_eq]
    dsimp only [FontStore.new]
    rw [if_neg hpne]
    simp
  refine ⟨_, hsel1, rfl, ?_, rfl, rfl, ?_, ?_, ?_⟩
  · show (List.replicate loader.faces.length (none : Option Face)).get? id = some none
    rw [replicate_get?, if_pos hlt]
  all_goals {
    have hsel2 :
        FontStore.select
          { loader := loader, parseOk := pOk,
            faces := List.replicate loader.faces.length none,
            buffers := [(hash, buf)], hasOnLoad := ob,
            loadLog := [info.path], parseLog := [id], observed := [] } f req =
        (none,
          { loader := loader, parseOk := pOk,
            faces := List.replicate loader.faces.length none,
            buffers := [(hash, buf)], hasOnLoad := ob,
            loadLog := [info.path], parseLog := [id, id], observed := [] }) := by
      rw [select_empty_slot _ f req id hsf
          (by show (List.replicate loader.faces.length (none : Option Face)).get? id = some none
              rw [replicate_get?, if_pos hlt]),
        loadFace_cached _ id info hash buf hinfo hres (by simp [assocFind]),
        finishParse_eq]
      dsimp only
      rw [if_neg hpne]
      simp
    rw [hsel2]
  }

/-- A parse oracle that rejects every buffer, standing for bytes
rustybuzz cannot parse. -/
def neverParse : Buffer → Nat → Bool := fun _ _ => false

/-- Witness for C4 on the collection fixture with an always-failing
parse oracle: select fails, the slot stays empty, and a second select
parses again without a second load. -/
theorem select_parse_failure_not_memoized_witness :
    ∃ s1, (FontStore.new collLoader neverParse true).select "demo"
        ⟨FontStyle.normal, ⟨400⟩, ⟨1000⟩⟩ = (none, s1) ∧
      s1.faces = (FontStore.new collLoader neverParse true).faces ∧
      s1.faces.get? 0 = some none ∧
      s1.parseLog = [0] ∧ s1.loadLog = ["coll.ttf"] ∧
      (s1.select "demo" ⟨FontStyle.normal, ⟨400⟩, ⟨1000⟩⟩).1 = none ∧
      (s1.select "demo" ⟨FontStyle.normal, ⟨400⟩, ⟨1000⟩⟩).2.parseLog = [0, 0] ∧
      (s1.select "demo" ⟨FontStyle.normal, ⟨400⟩, ⟨1000⟩⟩).2.loadLog = s1.loadLog :=
  select_parse_failure_not_memoized collLoader neverParse true "demo"
    ⟨FontStyle.normal, ⟨400⟩, ⟨1000⟩⟩ 0
    ⟨"coll.ttf", 0, "demo", ⟨.normal, ⟨400⟩, ⟨1000⟩⟩⟩ 7 [1, 2, 3]
    (by decide) rfl rfl rfl rfl

/-- C7: when two face descriptors resolve to the same content hash,
selecting both faces from a fresh store performs exactly one loader.load
call, and both loaded faces share the single cached byte buffer. -/
theorem select_buffer_sharing (loader : Loader) (pOk : Buffer → Nat → Bool)
    (ob : Bool) (f1 f2 : String) (req1 req2 : FontVariant)
    (id1 id2 : Nat) (info2 : FaceInfo) (s1 s2 : FontStore)
    (hinfo2 : loader.faces.get? id2 = some info2)
    (hsamehash : ∀ info1, loader.faces.get? id1 = some info1 →
      loader.resolve info1.path = loader.resolve info2.path)
    (h1 : (FontStore.new loader pOk ob).select f1 req1 = (some id1, s1))
    (h2 : s1.select f2 req2 = (some id2, s2)) :
    s2.loadLog.length = 1 ∧
    ∃ face1 face2, s2.faces.get? id1 = some (some face1) ∧
      s2.faces.get? id2 = some (some face2) ∧ face1.buffer = face2.buffer := by
  obtain ⟨hsf1, infoA, hash, buf, hinfoA, hresA, hloadA, hpA, hs1⟩ :=
    select_new_spec loader pOk ob f1 req1 id1 s1 h1
  have hres2 : loader.resolve info2.path = some hash :=
    (hsamehash infoA hinfoA) ▸ hresA
  have hlt1 : id1 < loader.faces.length := get?_some_lt _ _ _ hinfoA
  have hlt2 : id2 < loader.faces.length := get?_some_lt _ _ _ hinfo2
  have hslot1 : s1.faces.get? id1 = some (some ⟨buf, infoA.index⟩) := by
    rw [hs1]
    exact get?_set_self _ id1 _ (by rw [List.length_replicate]; exact hlt1)
  by_cases hid : id2 = id1
  · subst hid
    have hs2 := select_result_loaded s1 f2 req2 id2 ⟨buf, infoA.index⟩ s2 hslot1 h2
    subst hs2
    exact ⟨by simp [hs1], ⟨buf, infoA.index⟩, ⟨buf, infoA.index⟩, hslot1, hslot1, rfl⟩
  · have hsf2 : selectFace loader.faces f2 req2 = some id2 := by
      rcases select_fst s1 f2 req2 (some id2) s2 h2 with hn | hs
      · exact Option.noConfusion hn
      · rw [hs1] at hs
        exact hs.symm
    have hslot2 : s1.faces.get? id2 = some none := by
      rw [hs1]
      show ((List.replicate loader.faces.length (none : Option Face)).set id1
        (some ⟨buf, infoA.index⟩)).get? id2 = some none
      rw [get?_set_other _ id1 id2 _ (fun he => hid he.symm), replicate_get?,
        if_pos hlt2]
    rw [select_empty_slot s1 f2 req2 id2 (by rw [hs1]; exact hsf2) hslot2,
      loadFace_cached s1 id2 info2 hash buf (by rw [hs1]; exact hinfo2)
        (by rw [hs1]; exact hres2) (by rw [hs1]; simp [assocFind]),
      finishParse_eq] at h2
    by_cases hp2 : s1.parseOk buf info2.index = true
    · rw [if_pos hp2] at h2
      have hs2 := snd_of_pair_eq h2
      constructor
      · rw [hs2]
        show s1.loadLog.length = 1
        simp [hs1]
      · refine ⟨⟨buf, infoA.index⟩, ⟨buf, info2.index⟩, ?_, ?_, rfl⟩
        · rw [hs2]
          show (s1.faces.set id2 (some ⟨buf, info2.index⟩)).get? id1 =
            some (some ⟨buf, infoA.index⟩)
          rw [get?_set_other _ id2 id1 _ hid]
          exact hslot1
        · rw [hs2]
          show (s1.faces.set id2 (some ⟨buf, info2.index⟩)).get? id2 =
            some (some ⟨buf, info2.index⟩)
          exact get?_set_self _ id2 _
            (by rw [hs1]; simp [List.length_set, List.length_replicate]; exact hlt2)
    · rw [if_neg hp2] at h2
      exact Option.noConfusion (fst_of_pair_eq h2)

/-- Witness for C7 on the collection fixture: both collection members
resolve to hash 7; selecting both loads once and shares the buffer. -/
theorem select_buffer_sharing_witness :
    ((((FontStore.new collLoader alwaysParse true).select "demo"
      ⟨FontStyle.normal, ⟨400⟩, ⟨1000⟩⟩).2.select "demo"
      ⟨FontStyle.italic, ⟨400⟩, ⟨1000⟩⟩).2.loadLog.length = 1) ∧
    ∃ face1 face2,
      ((((FontStore.new collLoader alwaysParse true).select "demo"
        ⟨FontStyle.normal, ⟨400⟩, ⟨1000⟩⟩).2.select "demo"
        ⟨FontStyle.italic, ⟨400⟩, ⟨1000⟩⟩).2.faces.get? 0 = some (some face1)) ∧
      ((((FontStore.new collLoader alwaysParse true).select "demo"
        ⟨FontStyle.normal, ⟨400⟩, ⟨1000⟩⟩).2.select "demo"
        ⟨FontStyle.italic, ⟨400⟩, ⟨1000⟩⟩).2.faces.get? 1 = some (some face2)) ∧
      face1.buffer = face2.buffer :=
  select_buffer_sharing collLoader alwaysParse true "demo" "demo"
    ⟨FontStyle.normal, ⟨400⟩, ⟨1000⟩⟩ ⟨FontStyle.italic, ⟨400⟩, ⟨1000⟩⟩ 0 1
    ⟨"coll.ttf", 1, "demo", ⟨.italic, ⟨400⟩, ⟨1000⟩⟩⟩
    ((FontStore.new collLoader alwaysParse true).select "demo"
      ⟨FontStyle.normal, ⟨400⟩, ⟨1000⟩⟩).2
    (((FontStore.new collLoader alwaysParse true).select "demo"
      ⟨FontStyle.normal, ⟨400⟩, ⟨1000⟩⟩).2.select "demo"
      ⟨FontStyle.italic, ⟨400⟩, ⟨1000⟩⟩).2
    rfl (fun _ _ => rfl) rfl rfl

/-- A single face registered under the mixed-case family name "Arial";
its lower-cased registration key is "arial". -/
def arialLoader : Loader :=
  { faces := [⟨"arial.ttf", 0, "Arial", ⟨.normal, ⟨400⟩, ⟨1000⟩⟩⟩]
    resolve := fun _ => some 0
    load := fun _ => some [9] }

/-- C1 counterexample: a face is registered under the lower-cased form of
the queried family name "Arial" and loading succeeds (the all-lowercase
query returns the face), yet select applied to "Arial" itself returns
None - select does not lower-case its argument, so the lookup is not
case-insensitive as claimed. -/
theorem select_uppercase_family_counterexample :
    (∃ info ∈ arialLoader.faces, lowercase info.family = lowercase "Arial") ∧
    ((FontStore.new arialLoader alwaysParse false).select (lowercase "Arial")
      ⟨FontStyle.normal, ⟨400⟩, ⟨1000⟩⟩).1 = some 0 ∧
    ((FontStore.new arialLoader alwaysParse false).select "Arial"
      ⟨FontStyle.normal, ⟨400⟩, ⟨1000⟩⟩).1 = none :=
  ⟨⟨⟨"arial.ttf", 0, "Arial", ⟨.normal, ⟨400⟩, ⟨1000⟩⟩⟩, by decide, by decide⟩,
    rfl, rfl⟩

/-- C1 amended: the family lookup of select compares the given string
as-is against the lower-cased registration keys. Provided loading the
chosen face succeeds, select returns a FaceId exactly when some
registered face's lower-cased family name equals the given family string
itself (so a query differing only by case from the registration key
yields None). -/
theorem select_family_lookup_amended (loader : Loader)
    (pOk : Buffer → Nat → Bool) (ob : Bool) (f : String) (req : FontVariant)
    (hload : ∀ id info, selectFace loader.faces f req = some id →
      loader.faces.get? id = some info →
      ∃ hash, loader.resolve info.path = some hash ∧
        ∃ buf, loader.load info.path = some buf ∧ pOk buf info.index = true) :
    (((FontStore.new loader pOk ob).select f req).1.isSome ↔
      ∃ info ∈ loader.faces, lowercase info.family = f) := by
  constructor
  · intro hs
    have hpair : (FontStore.new loader pOk ob).select f req =
        (((FontStore.new loader pOk ob).select f req).1,
         ((FontStore.new loader pOk ob).select f req).2) := rfl
    rcases select_fst _ f req _ _ hpair with hn | hsf
    · rw [hn] at hs
      simp at hs
    · obtain ⟨id, hid⟩ := Option.isSome_iff_exists.mp hs
      rw [hid] at hsf
      obtain ⟨info, hinfo, hfam⟩ := selectFace_get? loader.faces f req id hsf.symm
      exact ⟨info, List.get?_mem hinfo, hfam⟩
  · rintro ⟨info, hmem, hfam⟩
    obtain ⟨n, hn⟩ := List.mem_iff_get?.mp hmem
    have hcand : (n, info) ∈ candidates loader.faces f := by
      apply List.mem_filterMap.mpr
      refine ⟨n, List.mem_range.mpr (get?_some_lt _ _ _ hn), ?_⟩
      rw [hn]
      dsimp only
      rw [if_pos hfam]
    have hne : candidates loader.faces f ≠ [] := List.ne_nil_of_mem hcand
    obtain ⟨id, hsf⟩ :=
      Option.isSome_iff_exists.mp (selectFace_isSome loader.faces f req hne)
    obtain ⟨infoB, hinfoB, _⟩ := selectFace_get? loader.faces f req id hsf
    obtain ⟨hash, hres, buf, hloadB, hp⟩ := hload id infoB hsf hinfoB
    rw [select_new_loads loader pOk ob f req id infoB hash buf hsf hinfoB hres
      hloadB hp]
    rfl

/-- Witness for the amended C1 on the single-face fixture with an
all-lowercase query. -/
theorem select_family_lookup_amended_witness :
    (((FontStore.new arialLoader alwaysParse false).select "arial"
      ⟨FontStyle.normal, ⟨400⟩, ⟨1000⟩⟩).1.isSome ↔
      ∃ info ∈ arialLoader.faces, lowercase info.family = "arial") :=
  select_family_lookup_amended arialLoader alwaysParse false "arial"
    ⟨FontStyle.normal, ⟨400⟩, ⟨1000⟩⟩
    (by
      intro id info hsf hinfo
      have hid : id = 0 := by
        have hsel : selectFace arialLoader.faces "arial"
            ⟨FontStyle.normal, ⟨400⟩, ⟨1000⟩⟩ = some 0 := by decide
        rw [hsel] at hsf
        exact (Option.some.inj hsf).symm
      subst hid
      have hi : info = ⟨"arial.ttf", 0, "Arial", ⟨.normal, ⟨400⟩, ⟨1000⟩⟩⟩ := by
        have hz : arialLoader.faces.get? 0 =
            some ⟨"arial.ttf", 0, "Arial", ⟨.normal, ⟨400⟩, ⟨1000⟩⟩⟩ := rfl
        rw [hz] at hinfo
        exact (Option.some.inj hinfo).symm
      subst hi
      exact ⟨0, rfl, [9], rfl, rfl⟩)

/-- A filesystem path as a list of components; "." and ".." are the
special components the canonicalizer treats. -/
abbrev FsPath := List String

/-- The error taxonomy of crate::diag::FileError as the spec lists it:
not found, permission denied, is-a-directory, decode error, other IO. -/
inductive FileError where
  | notFound
  | accessDenied
  | isDirectory
  | invalidUtf8
  | other
deriving DecidableEq

/-- A fallible result (crate::diag::FileResult). -/
inductive FileResult (α : Type) where
  | ok (val : α)
  | err (e : FileError)
deriving DecidableEq

/-- What the host filesystem holds at a path: a directory, a regular
file with bytes, or an access that fails with an IO error. -/
inductive FsEntry where
  | dir
  | file (bytes : Buffer)
  | ioErr (e : FileError)

/-- The read helper of src/eval/lua.rs lines 103-110: stat the path,
fail with IsDirectory if it names a directory, else read the bytes. -/
def read (fs : FsPath → FsEntry) (p : FsPath) : FileResult Buffer :=
  match fs p with
  | .dir => .err .isDirectory
  | .file b => .ok b
  | .ioErr e => .err e

/-- Modelled from the spec: PathExt::normalize (crate::util, not under
src/) canonicalizes a path "so that distinct textual spellings of the
same file share one slot" - drop "." components and let ".." pop the
previous real component. -/
def normStep (acc : List String) (c : String) : List String :=
  if c = "." then acc
  else if c = ".." then
    match acc.getLast? with
    | some last => if last = ".." then acc ++ [c] else acc.dropLast
    | none => acc ++ [c]
  else acc ++ [c]

/-- Canonicalization of a path by folding normStep over its components. -/
def normalize (p : FsPath) : FsPath := p.foldl normStep []

/-- Holds canonical data for all paths pointing to the same entity
(src/eval/lua.rs, struct PathSlot): the memoized text-resolution and
raw-byte outcomes, each OnceCell-empty until first computed. -/
structure PathSlot where
  source : Option (FileResult Nat)
  buffer : Option (FileResult Buffer)
deriving DecidableEq

/-- A slot with both cells still empty (Default for PathSlot). -/
def emptySlot : PathSlot := ⟨none, none⟩

/-- The part of LuaWorld (src/eval/lua.rs) that resolve and file touch:
the filesystem oracle, the UTF-8 decoder oracle (String::from_utf8, with
none modelling a decode failure), the append-only source list, the slot
table keyed by normalized path, and logs of read and decode calls so
that probes can be counted. -/
structure LuaWorld where
  fs : FsPath → FsEntry
  decode : Buffer → Option String
  sources : List (FsPath × String)
  paths : List (FsPath × PathSlot)
  readLog : List FsPath
  decodeLog : List Buffer

/-- Slot-table lookup by canonical key (the HashMap entry lookup inside
LuaWorld::slot). -/
def slotFind (l : List (FsPath × PathSlot)) (k : FsPath) : Option PathSlot :=
  match l with
  | [] => none
  | (k', v) :: rest => if k' = k then some v else slotFind rest k

/-- Store a slot under a canonical key, replacing an existing entry or
appending a fresh one. -/
def slotSet (l : List (FsPath × PathSlot)) (k : FsPath) (v : PathSlot) :
    List (FsPath × PathSlot) :=
  match l with
  | [] => [(k, v)]
  | (k', v') :: rest =>
    if k' = k then (k, v) :: rest else (k', v') :: slotSet rest k v

/-- LuaWorld::resolve (src/eval/lua.rs lines 71-80): return the memoized
result when the slot holds one; otherwise read the path, decode it as
UTF-8, intern a new Source, and memoize the outcome, error included. -/
def LuaWorld.resolve (w : LuaWorld) (p : FsPath) : FileResult Nat × LuaWorld :=
  let key := normalize p
  let slot := (slotFind w.paths key).getD emptySlot
  match slot.source with
  | some r => (r, w)
  | none =>
    let w1 := { w with readLog := w.readLog ++ [p] }
    match read w.fs p with
    | .err e =>
      (.err e,
        { w1 with paths := slotSet w1.paths key { slot with source := some (.err e) } })
    | .ok buf =>
      let w2 := { w1 with decodeLog := w1.decodeLog ++ [buf] }
      match w.decode buf with
      | none =>
        (.err .invalidUtf8,
          { w2 with paths :=
              slotSet w2.paths key { slot with source := some (.err .invalidUtf8) } })
      | some text =>
        (.ok w.sources.length,
          { w2 with sources := w2.sources ++ [(p, text)],
                    paths :=
              slotSet w2.paths key { slot with source := some (.ok w.sources.length) } })

/-- LuaWorld::file (src/eval/lua.rs lines 94-99): the same memoization
for the raw byte slot, with no decoding and no interning. -/
def LuaWorld.file (w : LuaWorld) (p : FsPath) : FileResult Buffer × LuaWorld :=
  let key := normalize p
  let slot := (slotFind w.paths key).getD emptySlot
  match slot.buffer with
  | some r => (r, w)
  | none =>
    let w1 := { w with readLog := w.readLog ++ [p] }
    match read w.fs p with
    | .err e =>
      (.err e,
        { w1 with paths := slotSet w1.paths key { slot with buffer := some (.err e) } })
    | .ok buf =>
      (.ok buf,
        { w1 with paths := slotSet w1.paths key { slot with buffer := some (.ok buf) } })

theorem slotFind_slotSet_self (l : List (FsPath × PathSlot)) (k : FsPath)
    (v : PathSlot) : slotFind (slotSet l k v) k = some v := by
  induction l with
  | nil => simp [slotSet, slotFind]
  | cons kv rest ih =>
    rw [slotSet]
    by_cases hk : kv.1 = k
    · rw [if_pos hk, slotFind, if_pos rfl]
    · rw [if_neg hk, slotFind, if_neg hk]
      exact ih

theorem slotSet_length (l : List (FsPath × PathSlot)) (k : FsPath)
    (v : PathSlot) : (slotSet l k v).length ≤ l.length + 1 := by
  induction l with
  | nil => simp [slotSet]
  | cons kv rest ih =>
    rw [slotSet]
    by_cases hk : kv.1 = k
    · rw [if_pos hk]
      simp
    · rw [if_neg hk]
      simpa using Nat.succ_le_succ ih

/-- After resolve, the slot of the canonical key memoizes exactly the
returned result. -/
theorem resolve_slot_source (w : LuaWorld) (p : FsPath) :
    ((slotFind (w.resolve p).2.paths (normalize p)).getD emptySlot).source =
      some (w.resolve p).1 := by
  rw [LuaWorld.resolve]
  dsimp only
  cases hsrc : ((slotFind w.paths (normalize p)).getD emptySlot).source with
  | some r => dsimp only; exact hsrc
  | none =>
    dsimp only
    cases hread : read w.fs p with
    | err e => dsimp only; rw [slotFind_slotSet_self]; rfl
    | ok buf =>
      dsimp only
      cases hdec : w.decode buf with
      | none => dsimp only; rw [slotFind_slotSet_self]; rfl
      | some text => dsimp only; rw [slotFind_slotSet_self]; rfl

/-- A resolve that finds its slot already computed returns the memoized
result and changes nothing. -/
theorem resolve_hit (w : LuaWorld) (p : FsPath) (r : FileResult Nat)
    (h : ((slotFind w.paths (normalize p)).getD emptySlot).source = some r) :
    w.resolve p = (r, w) := by
  rw [LuaWorld.resolve]
  dsimp only
  rw [h]

/-- After file, the buffer cell of the canonical key memoizes exactly
the returned result. -/
theorem file_slot_buffer (w : LuaWorld) (p : FsPath) :
    ((slotFind (w.file p).2.paths (normalize p)).getD emptySlot).buffer =
      some (w.file p).1 := by
  rw [LuaWorld.file]
  dsimp only
  cases hsrc : ((slotFind w.paths (normalize p)).getD emptySlot).buffer with
  | some r => dsimp only; exact hsrc
  | none =>
    dsimp only
    cases hread : read w.fs p with
    | err e => dsimp only; rw [slotFind_slotSet_self]; rfl
    | ok buf => dsimp only; rw [slotFind_slotSet_self]; rfl

/-- A file call that finds its slot already computed returns the
memoized result and changes nothing. -/
theorem file_hit (w : LuaWorld) (p : FsPath) (r : FileResult Buffer)
    (h : ((slotFind w.paths (normalize p)).getD emptySlot).buffer = some r) :
    w.file p = (r, w) := by
  rw [LuaWorld.file]
  dsimp only
  rw [h]

/-- C2: the first resolve (or file) call memoizes its Result - success
or typed failure - in the path's slot, and a second call with an
equivalent path returns that same Result with no further read and no
further decode: the whole world state is untouched, so a missing path
resolved twice yields the same error both times without a second probe. -/
theorem resolve_file_memoized (w : LuaWorld) (p1 p2 : FsPath)
    (h : normalize p1 = normalize p2) :
    ((slotFind (w.resolve p1).2.paths (normalize p1)).getD emptySlot).source =
      some (w.resolve p1).1 ∧
    (w.resolve p1).2.resolve p2 = ((w.resolve p1).1, (w.resolve p1).2) ∧
    ((slotFind (w.file p1).2.paths (normalize p1)).getD emptySlot).buffer =
      some (w.file p1).1 ∧
    (w.file p1).2.file p2 = ((w.file p1).1, (w.file p1).2) := by
  refine ⟨resolve_slot_source w p1, ?_, file_slot_buffer w p1, ?_⟩
  · exact resolve_hit _ p2 _ (by rw [← h]; exact resolve_slot_source w p1)
  · exact file_hit _ p2 _ (by rw [← h]; exact file_slot_buffer w p1)

/-- A world whose filesystem reports every path missing. -/
def missingWorld : LuaWorld :=
  { fs := fun _ => .ioErr .notFound
    decode := fun _ => some ""
    sources := []
    paths := []
    readLog := []
    decodeLog := [] }

/-- Witness for C2: resolving the same missing path twice on a fresh
world returns the memoized error with no second probe. -/
theorem resolve_file_memoized_witness :
    (normalize ["missing.typ"] = normalize ["missing.typ"]) ∧
    (((slotFind (missingWorld.resolve ["missing.typ"]).2.paths
        (normalize ["missing.typ"])).getD emptySlot).source =
      some (missingWorld.resolve ["missing.typ"]).1 ∧
    (missingWorld.resolve ["missing.typ"]).2.resolve ["missing.typ"] =
      ((missingWorld.resolve ["missing.typ"]).1,
       (missingWorld.resolve ["missing.typ"]).2) ∧
    ((slotFind (missingWorld.file ["missing.typ"]).2.paths
        (normalize ["missing.typ"])).getD emptySlot).buffer =
      some (missingWorld.file ["missing.typ"]).1 ∧
    (missingWorld.file ["missing.typ"]).2.file ["missing.typ"] =
      ((missingWorld.file ["missing.typ"]).1,
       (missingWorld.file ["missing.typ"]).2)) :=
  ⟨rfl, resolve_file_memoized missingWorld ["missing.typ"] ["missing.typ"] rfl⟩

/-- C8: two spellings that normalize to the same canonical path use one
memoized slot - the second resolve call allocates nothing and the two
calls together allocate at most one slot - and both calls return the
same result, in particular the same SourceId on success. -/
theorem resolve_canonicalization_equiv (w : LuaWorld) (p1 p2 : FsPath)
    (h : normalize p1 = normalize p2) :
    ((w.resolve p1).2.resolve p2).1 = (w.resolve p1).1 ∧
    ((w.resolve p1).2.resolve p2).2.paths = (w.resolve p1).2.paths ∧
    (w.resolve p1).2.paths.length ≤ w.paths.length + 1 := by
  have hsecond : (w.resolve p1).2.resolve p2 =
      ((w.resolve p1).1, (w.resolve p1).2) :=
    resolve_hit _ p2 _ (by rw [← h]; exact resolve_slot_source w p1)
  refine ⟨by rw [hsecond], by rw [hsecond], ?_⟩
  rw [LuaWorld.resolve]
  dsimp only
  cases hsrc : ((slotFind w.paths (normalize p1)).getD emptySlot).source with
  | some r => dsimp only; exact Nat.le_succ_of_le (Nat.le_refl _)
  | none =>
    dsimp only
    cases hread : read w.fs p1 with
    | err e => dsimp only; exact slotSet_length _ _ _
    | ok buf =>
      dsimp only
      cases hdec : w.decode buf with
      | none => dsimp only; exact slotSet_length _ _ _
      | some text => dsimp only; exact slotSet_length _ _ _

/-- A world with one readable, decodable file. -/
def typWorld : LuaWorld :=
  { fs := fun _ => .file [104]
    decode := fun _ => some "x"
    sources := []
    paths := []
    readLog := []
    decodeLog := [] }

/-- Witness for C8: the spellings a/../b.typ and b.typ normalize to the
same canonical path, and resolving both returns the same result over a
single slot. -/
theorem resolve_canonicalization_equiv_witness :
    (normalize ["a", "..", "b.typ"] = normalize ["b.typ"]) ∧
    (((typWorld.resolve ["a", "..", "b.typ"]).2.resolve ["b.typ"]).1 =
      (typWorld.resolve ["a", "..", "b.typ"]).1 ∧
    ((typWorld.resolve ["a", "..", "b.typ"]).2.resolve ["b.typ"]).2.paths =
      (typWorld.resolve ["a", "..", "b.typ"]).2.paths ∧
    (typWorld.resolve ["a", "..", "b.typ"]).2.paths.length ≤
      typWorld.paths.length + 1) :=
  have h : normalize ["a", "..", "b.typ"] = normalize ["b.typ"] := by decide
  ⟨h, resolve_canonicalization_equiv typWorld ["a", "..", "b.typ"] ["b.typ"] h⟩

end Typst
